import Mathlib

/-!
Verification of the PubMed pharma-papers pipeline (`src/code_v1.py`).

The Python program is embedded shallowly:
* `is_pharma_affiliation`, `extract_email` — the pure filter helpers
  (lines 9-22 of the source).  Python's `None` is modelled as
  `Option.none`; Python `\w` and `str.lower` are modelled over ASCII
  (word characters are alphanumerics plus underscore).
* `fetch_article_xml` — the chunking loop (lines 42-55), modelled as the
  trace of requests issued and sleeps performed.
* `parse_articles` — the XML parsing/filter loop (lines 57-96).  An XML
  batch is modelled as either a well-formed list of article records or
  malformed text (on which `ET.fromstring` raises).
* `mainRun` — the branch structure of `main` (lines 137-162) for the
  debug=False path, recording exit code, the user-facing message, whether
  the fetch step ran and whether a report was emitted.
-/

/-- `PHARMA_KEYWORDS` (source lines 9-13): the fixed sixteen-keyword list. -/
def PHARMA_KEYWORDS : List String :=
  ["pharma", "biotech", "biosciences", "therapeutics", "diagnostics",
   "life sciences", "laboratories", "inc", "corp", "ltd", "gmbh",
   "pharmaceutical", "genomics", "healthcare", "bioscience", "biopharma"]

/-- Python's substring containment `needle in hay` on character lists. -/
def isSubListOf (needle hay : List Char) : Bool :=
  hay.tails.any (fun t => needle.isPrefixOf t)

/-- `is_pharma_affiliation(aff)` (source lines 15-16):
`any(kw in (aff or "").lower() for kw in PHARMA_KEYWORDS)`.
`aff` may be `None` (an affiliation element with no text). -/
def is_pharma_affiliation (aff : Option String) : Bool :=
  PHARMA_KEYWORDS.any (fun kw => isSubListOf kw.data ((aff.getD "").data.map Char.toLower))

/-- The character class `[\w\.-]` of the email regex (ASCII `\w`). -/
def emailChar (c : Char) : Bool :=
  c.isAlphanum || c == '_' || c == '.' || c == '-'

/-- One attempt of the regex `[\w\.-]+@[\w\.-]+` anchored at the start of
`s`: a maximal nonempty run of `emailChar`s, then `@`, then a maximal
nonempty run of `emailChar`s (both runs greedy; `@` is not in the class,
so no backtracking can succeed beyond this). -/
def matchEmailAt (s : List Char) : Option (List Char) :=
  if (s.takeWhile emailChar).isEmpty then none
  else
    match s.dropWhile emailChar with
    | '@' :: rest =>
      if (rest.takeWhile emailChar).isEmpty then none
      else some (s.takeWhile emailChar ++ '@' :: rest.takeWhile emailChar)
    | _ => none

/-- `re.search` scanning: try `matchEmailAt` at each position left to
right, returning the first (leftmost) success. -/
def searchEmail : List Char → Option (List Char)
  | [] => none
  | c :: cs =>
    match matchEmailAt (c :: cs) with
    | some m => some m
    | none => searchEmail cs

/-- `extract_email(text)` (source lines 18-22): `""` on `None`/empty text,
otherwise the leftmost `[\w\.-]+@[\w\.-]+` match, or `""` if none. -/
def extract_email (text : Option String) : String :=
  match text with
  | none => ""
  | some t =>
    if t = "" then ""
    else
      match searchEmail t.data with
      | some m => String.mk m
      | none => ""

/-- The observable trace of `fetch_article_xml`: the identifier batches
sent (one request each, before comma-joining) and how many
`time.sleep(0.34)` calls were performed. -/
structure FetchTrace where
  requests : List (List String)
  sleeps : Nat
deriving DecidableEq, Repr

/-- `fetch_article_xml(pmids)` (source lines 42-55):
`for i in range(0, len(pmids), 50)`, each iteration requests
`pmids[i:i+50]` and then unconditionally sleeps. -/
def fetch_article_xml (pmids : List String) : FetchTrace :=
  if h : pmids = [] then ⟨[], 0⟩
  else
    let rest := fetch_article_xml (pmids.drop 50)
    ⟨pmids.take 50 :: rest.requests, rest.sleeps + 1⟩
termination_by pmids.length
decreasing_by
  simp only [List.length_drop]
  have : pmids.length ≠ 0 := fun hl => h (List.eq_nil_of_length_eq_zero hl)
  omega

/-- An author element: `ForeName`, `LastName` (absent ⇒ `None`) and the
texts of its `AffiliationInfo/Affiliation` elements (an element with no
text has `aff.text = None`). -/
structure Author where
  foreName : Option String
  lastName : Option String
  affiliations : List (Option String)
deriving DecidableEq, Repr

/-- A `PubmedArticle` element: `findtext` results for PMID, title and the
two year fields (`None` iff the element is absent; present-but-empty
elements yield `some ""`), plus the `AuthorList/Author` elements. -/
structure PubmedArticle where
  pmid : Option String
  title : Option String
  pubDateYear : Option String
  articleDateYear : Option String
  authors : List Author
deriving DecidableEq, Repr

/-- One raw XML batch string: either `ET.fromstring` succeeds and yields
the `PubmedArticle` elements, or it raises `ParseError`. -/
inductive RawBatch where
  | wellFormed (articles : List PubmedArticle)
  | malformed
deriving DecidableEq, Repr

/-- One emitted row (source lines 86-93). -/
structure ArticleResult where
  pubmedID : String
  title : String
  publicationDate : String
  companyAffiliation : String
  nonAcadAuthor : String
  corrEmail : String
deriving DecidableEq, Repr

/-- The three loop variables of the per-article author scan
(source lines 69-71). -/
structure MatchState where
  nonAcadAuthor : String
  companyAff : String
  corrEmail : String
deriving DecidableEq, Repr

/-- Python `str.strip()`: drop leading and trailing whitespace. -/
def pyStrip (s : String) : String :=
  String.mk (((s.data.dropWhile Char.isWhitespace).reverse.dropWhile
    Char.isWhitespace).reverse)

/-- `f"{fname} {lname}".strip()` (source lines 79-81). -/
def authorName (a : Author) : String :=
  pyStrip ((a.foreName.getD "") ++ " " ++ (a.lastName.getD ""))

/-- The body of the inner affiliation loop (source lines 75-84):
`aff_txt = aff.text or ""`; on
`is_pharma_affiliation(aff_txt) and not company_aff` record the
affiliation, the author's name and (if nonempty) the extracted email. -/
def processAff (a : Author) (st : MatchState) (aff : Option String) : MatchState :=
  let aff_txt := aff.getD ""
  if is_pharma_affiliation (some aff_txt) && st.companyAff == "" then
    { nonAcadAuthor := authorName a
      companyAff := aff_txt
      corrEmail :=
        let email := extract_email (some aff_txt)
        if email = "" then st.corrEmail else email }
  else st

/-- The author loop body (source lines 73-84). -/
def processAuthor (st : MatchState) (a : Author) : MatchState :=
  a.affiliations.foldl (processAff a) st

/-- `pub_date = x or y` on `findtext` results: Python `or` falls through
on `None` and on the empty string. -/
def pyOr (a : Option String) (b : String) : String :=
  match a with
  | none => b
  | some s => if s = "" then b else s

/-- Processing of one `PubmedArticle` (source lines 61-95): scan authors
and affiliations; append a row iff `company_aff` is nonempty at the end. -/
def parseArticle (art : PubmedArticle) : Option ArticleResult :=
  let st := art.authors.foldl processAuthor ⟨"", "", ""⟩
  if st.companyAff = "" then none
  else some
    { pubmedID := art.pmid.getD ""
      title := art.title.getD ""
      publicationDate := pyOr art.pubDateYear (pyOr art.articleDateYear "")
      companyAffiliation := st.companyAff
      nonAcadAuthor := st.nonAcadAuthor
      corrEmail := st.corrEmail }

/-- `parse_articles(xml_strings)` (source lines 57-96): batches are
processed in order; `ET.fromstring` raises on the first malformed batch,
aborting the whole run with `ParseError` and discarding everything. -/
def parse_articles : List RawBatch → Except Unit (List ArticleResult)
  | [] => .ok []
  | RawBatch.malformed :: _ => .error ()
  | RawBatch.wellFormed arts :: rest =>
    match parse_articles rest with
    | .error e => .error e
    | .ok tail => .ok (arts.filterMap parseArticle ++ tail)

/-- Outcome of `fetch_pmids` as seen by `main`: either the request raised
(caught at source line 139) or it returned the identifier list. -/
inductive SearchOutcome where
  | failure
  | ids (pmids : List String)
deriving DecidableEq, Repr

/-- What one run of `main` observably does: exit code, the decisive
user-facing message, whether `fetch_article_xml` was invoked, and whether
a report (CSV file or console table) was emitted. -/
structure RunResult where
  exitCode : Nat
  message : String
  fetchCalled : Bool
  reportEmitted : Bool
deriving DecidableEq, Repr

/-- The branch structure of `main` after argument parsing
(source lines 137-162), for a run with a non-empty query.  `fetchRes` is
the outcome of `fetch_article_xml`'s network calls: `.error` if some
request raised (caught at line 148), `.ok batches` otherwise. -/
def mainRun (search : SearchOutcome) (fetchRes : Except Unit (List RawBatch)) :
    RunResult :=
  match search with
  | .failure => ⟨1, "Error fetching PMIDs: ...", false, false⟩
  | .ids pmids =>
    if pmids.isEmpty then
      ⟨0, "No articles found for the given query.", false, false⟩
    else
      match fetchRes with
      | .error _ => ⟨1, "Error fetching or parsing articles: ...", true, false⟩
      | .ok batches =>
        match parse_articles batches with
        | .error _ => ⟨1, "Error fetching or parsing articles: ...", true, false⟩
        | .ok parsed =>
          if parsed.isEmpty then
            ⟨0, "No matching articles with pharma/biotech affiliations found.", true, false⟩
          else
            ⟨0, "report emitted", true, true⟩

/-- The claim's `user@host.tld` shape: word characters, dots and hyphens
on both sides of the `@`, with an explicit dot separating host and tld. -/
def containsTLDEmail (s : String) : Prop :=
  ∃ u h t : List Char, u ≠ [] ∧ h ≠ [] ∧ t ≠ [] ∧
    (∀ c ∈ u, emailChar c = true) ∧ (∀ c ∈ h, emailChar c = true) ∧
    (∀ c ∈ t, emailChar c = true) ∧
    (u ++ '@' :: (h ++ '.' :: t)) <:+: s.data

/-- The shape the code's regex `[\w\.-]+@[\w\.-]+` actually requires: a
nonempty run of word characters, dots and hyphens on each side of the
`@`, with no dot required in the domain. -/
def containsEmailLike (s : String) : Prop :=
  ∃ u h : List Char, u ≠ [] ∧ h ≠ [] ∧
    (∀ c ∈ u, emailChar c = true) ∧ (∀ c ∈ h, emailChar c = true) ∧
    (u ++ '@' :: h) <:+: s.data

/-- The publication date exactly as the claim words it: the article-level
year field's value whenever that field is present (even if its text is
empty), else the secondary field's value when present, else `""`. -/
def specPublicationDate (art : PubmedArticle) : String :=
  match art.pubDateYear with
  | some y => y
  | none =>
    match art.articleDateYear with
    | some y => y
    | none => ""

/-- Concrete record used to instantiate first-match-wins: the second
author holds the only qualifying affiliation of its academic prefix, the
third author also qualifies but must not overwrite. -/
def wArticle : PubmedArticle :=
  { pmid := some "42"
    title := some "A Title"
    pubDateYear := some "2021"
    articleDateYear := none
    authors :=
      [⟨some "Alice", some "Smith", [some "Harvard Medical School"]⟩,
       ⟨some "Bob", some "Jones", [some "MIT", some "Acme Pharma, j@a.io"]⟩,
       ⟨some "Carol", some "King", [some "Beta biotech"]⟩] }

/-- Concrete record whose `PubDate/Year` element is present but empty
while `ArticleDate/Year` holds a value. -/
def yearArticle : PubmedArticle :=
  { pmid := some "7"
    title := some "B Title"
    pubDateYear := some ""
    articleDateYear := some "2020"
    authors := [⟨some "Jan", some "Doe", [some "Acme inc"]⟩] }

/-- Concrete record with a plain nonempty year, used to instantiate the
amended date-fallback theorem. -/
def yearArticle2 : PubmedArticle :=
  { pmid := some "8"
    title := some "C Title"
    pubDateYear := some "2001"
    articleDateYear := none
    authors := [⟨some "Jan", some "Doe", [some "Acme inc"]⟩] }

/-! ### Substring containment -/

theorem isSubListOf_eq_true_iff (n h : List Char) :
    isSubListOf n h = true ↔ n <:+: h := by
  simp only [isSubListOf, List.any_eq_true, List.mem_tails,
    List.isPrefixOf_iff_prefix, List.infix_iff_prefix_suffix]
  exact ⟨fun ⟨t, hs, hp⟩ => ⟨t, hp, hs⟩, fun ⟨t, hp, hs⟩ => ⟨t, hs, hp⟩⟩

/-- A list is an infix of a mapped list iff it is the image of an infix. -/
theorem infix_map_exists {f : Char → Char} {kw l : List Char} :
    kw <:+: l.map f ↔ ∃ t, t <:+: l ∧ t.map f = kw := by
  constructor
  · rintro ⟨s, t, hst⟩
    rw [List.append_assoc] at hst
    obtain ⟨l₁, l₂, hl, -, hmap₂⟩ := List.append_eq_map_iff.mp hst
    obtain ⟨a, b, hab, hfa, -⟩ := List.map_eq_append_iff.mp hmap₂
    exact ⟨a, ⟨l₁, b, by rw [hl, hab, List.append_assoc]⟩, hfa⟩
  · rintro ⟨t, ⟨s, u, hsu⟩, hm⟩
    exact ⟨s.map f, u.map f, by rw [← hm, ← List.map_append, ← List.map_append, hsu]⟩

theorem is_pharma_getD (x : Option String) :
    is_pharma_affiliation (some (x.getD "")) = is_pharma_affiliation x := by
  cases x <;> rfl

theorem is_pharma_empty : is_pharma_affiliation (some "") = false := by decide

theorem qualifying_getD_ne_empty {x : Option String}
    (h : is_pharma_affiliation x = true) : x.getD "" ≠ "" := by
  intro he
  have h2 := is_pharma_getD x
  rw [he, h, is_pharma_empty] at h2
  exact Bool.false_ne_true h2

/-! ### The author/affiliation scan of `parse_articles` -/

theorem processAff_of_found (a : Author) (st : MatchState) (x : Option String)
    (h : st.companyAff ≠ "") : processAff a st x = st := by
  have hb : (st.companyAff == "") = false := by
    simpa using h
  simp [processAff, hb]

theorem processAff_of_notPharma (a : Author) (st : MatchState) (x : Option String)
    (h : is_pharma_affiliation x = false) : processAff a st x = st := by
  have hb : is_pharma_affiliation (some (x.getD "")) = false := by
    rw [is_pharma_getD]; exact h
  simp [processAff, hb]

theorem processAff_match (a : Author) (st : MatchState) (x : Option String)
    (hst : st.companyAff = "") (hx : is_pharma_affiliation x = true) :
    processAff a st x =
      { nonAcadAuthor := authorName a
        companyAff := x.getD ""
        corrEmail :=
          if extract_email (some (x.getD "")) = "" then st.corrEmail
          else extract_email (some (x.getD "")) } := by
  have hb : (is_pharma_affiliation (some (x.getD "")) && (st.companyAff == "")) = true := by
    rw [is_pharma_getD, hx, hst]
    rfl
  simp [processAff, hb]

theorem foldAffs_of_found (a : Author) (affs : List (Option String)) (st : MatchState)
    (h : st.companyAff ≠ "") : affs.foldl (processAff a) st = st := by
  induction affs with
  | nil => rfl
  | cons x xs ih =>
    rw [List.foldl_cons, processAff_of_found a st x h, ih]

theorem foldAffs_of_none (a : Author) (affs : List (Option String)) (st : MatchState)
    (h : ∀ x ∈ affs, is_pharma_affiliation x = false) :
    affs.foldl (processAff a) st = st := by
  induction affs with
  | nil => rfl
  | cons x xs ih =>
    rw [List.foldl_cons, processAff_of_notPharma a st x (h x (List.mem_cons_self x xs))]
    exact ih fun y hy => h y (List.mem_cons_of_mem x hy)

theorem foldAuthors_of_found (authors : List Author) (st : MatchState)
    (h : st.companyAff ≠ "") : authors.foldl processAuthor st = st := by
  induction authors with
  | nil => rfl
  | cons b bs ih =>
    rw [List.foldl_cons, show processAuthor st b = st from foldAffs_of_found b _ st h, ih]

theorem foldAuthors_of_none (authors : List Author) (st : MatchState)
    (h : ∀ b ∈ authors, ∀ x ∈ b.affiliations, is_pharma_affiliation x = false) :
    authors.foldl processAuthor st = st := by
  induction authors with
  | nil => rfl
  | cons b bs ih =>
    rw [List.foldl_cons,
      show processAuthor st b = st from
        foldAffs_of_none b _ st (h b (List.mem_cons_self b bs)), ih]
    exact fun c hc => h c (List.mem_cons_of_mem b hc)

/-- Scanning `ap ++ t :: ar` from an unmatched state, where nothing in
`ap` qualifies and `t` does: the state records `t` and never changes
again, whatever `ar` holds. -/
theorem foldAffs_first_match (a : Author) (ap ar : List (Option String))
    (t : Option String) (st : MatchState) (hst : st.companyAff = "")
    (hap : ∀ x ∈ ap, is_pharma_affiliation x = false)
    (ht : is_pharma_affiliation t = true) :
    (ap ++ t :: ar).foldl (processAff a) st =
      { nonAcadAuthor := authorName a
        companyAff := t.getD ""
        corrEmail :=
          if extract_email (some (t.getD "")) = "" then st.corrEmail
          else extract_email (some (t.getD "")) } := by
  rw [List.foldl_append, foldAffs_of_none a ap st hap, List.foldl_cons,
    processAff_match a st t hst ht]
  exact foldAffs_of_found a ar _ (qualifying_getD_ne_empty ht)

theorem foldAffs_companyAff_empty_iff (a : Author) (affs : List (Option String))
    (st : MatchState) :
    ((affs.foldl (processAff a) st).companyAff = "") ↔
      (st.companyAff = "" ∧ ∀ x ∈ affs, is_pharma_affiliation x = false) := by
  induction affs generalizing st with
  | nil => simp
  | cons x xs ih =>
    rw [List.foldl_cons]
    by_cases hst : st.companyAff = ""
    · by_cases hx : is_pharma_affiliation x = true
      · rw [processAff_match a st x hst hx, ih]
        simp [hst, hx, qualifying_getD_ne_empty hx]
      · have hx' : is_pharma_affiliation x = false := by
          revert hx; cases is_pharma_affiliation x <;> simp
        rw [processAff_of_notPharma a st x hx', ih]
        simp [hst, hx']
    · rw [processAff_of_found a st x hst, ih]
      simp [hst]

theorem foldAuthors_companyAff_empty_iff (authors : List Author) (st : MatchState) :
    ((authors.foldl processAuthor st).companyAff = "") ↔
      (st.companyAff = "" ∧
        ∀ b ∈ authors, ∀ x ∈ b.affiliations, is_pharma_affiliation x = false) := by
  induction authors generalizing st with
  | nil => simp
  | cons b bs ih =>
    rw [List.foldl_cons, ih, show processAuthor st b = b.affiliations.foldl (processAff b) st from rfl,
      foldAffs_companyAff_empty_iff]
    constructor
    · rintro ⟨⟨h1, h2⟩, h3⟩
      exact ⟨h1, fun c hc => by
        rcases List.mem_cons.mp hc with rfl | hc'
        · exact h2
        · exact h3 c hc'⟩
    · rintro ⟨h1, h2⟩
      exact ⟨⟨h1, h2 b (List.mem_cons_self b bs)⟩,
        fun c hc => h2 c (List.mem_cons_of_mem b hc)⟩

theorem parseArticle_isSome_iff (art : PubmedArticle) :
    (parseArticle art).isSome = true ↔
      ∃ a ∈ art.authors, ∃ x ∈ a.affiliations, is_pharma_affiliation x = true := by
  have H := foldAuthors_companyAff_empty_iff art.authors ⟨"", "", ""⟩
  by_cases h : (art.authors.foldl processAuthor ⟨"", "", ""⟩).companyAff = ""
  · obtain ⟨-, hall⟩ := H.mp h
    simp only [parseArticle, h, if_pos]
    constructor
    · intro hfalse; cases hfalse
    · rintro ⟨a, ha, x, hx, hq⟩
      rw [hall a ha x hx] at hq
      cases hq
  · simp only [parseArticle, h, if_neg, not_false_iff, Option.isSome_some, true_iff]
    have h2 : ¬ (MatchState.companyAff ⟨"", "", ""⟩ = "" ∧
        ∀ b ∈ art.authors, ∀ x ∈ b.affiliations, is_pharma_affiliation x = false) :=
      fun hc => h (H.mpr hc)
    push_neg at h2
    obtain ⟨a, ha, x, hx, hq⟩ := h2 rfl
    exact ⟨a, ha, x, hx, by revert hq; cases is_pharma_affiliation x <;> simp⟩

/-! ### Batch-level behaviour of `parse_articles` -/

theorem parse_articles_wellFormed (artss : List (List PubmedArticle)) :
    parse_articles (artss.map RawBatch.wellFormed) =
      Except.ok (artss.flatten.filterMap parseArticle) := by
  induction artss with
  | nil => rfl
  | cons arts rest ih =>
    simp [parse_articles, ih, List.filterMap_append]

theorem parse_articles_error_of_malformed {batches : List RawBatch}
    (h : RawBatch.malformed ∈ batches) : parse_articles batches = .error () := by
  induction batches with
  | nil => cases h
  | cons b rest ih =>
    cases b with
    | malformed => rfl
    | wellFormed arts =>
      have hm : RawBatch.malformed ∈ rest := by
        rcases List.mem_cons.mp h with hh | hh
        · cases hh
        · exact hh
      simp [parse_articles, ih hm]

/-! ### Behaviour of the fetch loop -/

theorem fetch_article_xml_nil : fetch_article_xml [] = ⟨[], 0⟩ := by
  rw [fetch_article_xml]
  simp

theorem fetch_article_xml_cons (pmids : List String) (h : pmids ≠ []) :
    fetch_article_xml pmids =
      ⟨pmids.take 50 :: (fetch_article_xml (pmids.drop 50)).requests,
       (fetch_article_xml (pmids.drop 50)).sleeps + 1⟩ := by
  rw [fetch_article_xml]
  simp [h]

/-! ### The email regex -/

theorem emailChar_at : emailChar '@' = false := by decide

/-- Any successful anchored match is a nonempty class run, `'@'`, a
nonempty class run, and a prefix of the scanned text. -/
theorem matchEmailAt_sound {l m : List Char} (hm : matchEmailAt l = some m) :
    ∃ u h : List Char, u ≠ [] ∧ h ≠ [] ∧
      (∀ c ∈ u, emailChar c = true) ∧ (∀ c ∈ h, emailChar c = true) ∧
      m = u ++ '@' :: h ∧ m <+: l := by
  unfold matchEmailAt at hm
  split at hm
  · cases hm
  · rename_i h1
    split at hm
    · rename_i rest hd
      split at hm
      · cases hm
      · rename_i h2
        obtain rfl : l.takeWhile emailChar ++ '@' :: rest.takeWhile emailChar = m :=
          Option.some.inj hm
        refine ⟨l.takeWhile emailChar, rest.takeWhile emailChar,
          by simpa [List.isEmpty_iff] using h1,
          by simpa [List.isEmpty_iff] using h2,
          fun c hc => List.mem_takeWhile_imp hc,
          fun c hc => List.mem_takeWhile_imp hc, rfl, ?_⟩
        refine ⟨rest.dropWhile emailChar, ?_⟩
        rw [List.append_assoc, List.cons_append, List.takeWhile_append_dropWhile,
          ← hd, List.takeWhile_append_dropWhile]
    · cases hm

/-- The anchored match succeeds on any text of the shape
`u ++ '@' :: (h ++ y)` with `u`, `h` nonempty class runs. -/
theorem matchEmailAt_anchor {u h y : List Char} (hu : u ≠ []) (hh : h ≠ [])
    (hua : ∀ c ∈ u, emailChar c = true) (hha : ∀ c ∈ h, emailChar c = true) :
    (matchEmailAt (u ++ '@' :: (h ++ y))).isSome = true := by
  have ht : (u ++ '@' :: (h ++ y)).takeWhile emailChar = u := by
    rw [List.takeWhile_append_of_pos hua, List.takeWhile_cons_of_neg (by simp [emailChar_at])]
    simp
  have hd : (u ++ '@' :: (h ++ y)).dropWhile emailChar = '@' :: (h ++ y) := by
    rw [List.dropWhile_append_of_pos hua, List.dropWhile_cons_of_neg (by simp [emailChar_at])]
  have ht2 : ((h ++ y).takeWhile emailChar).isEmpty = false := by
    rcases h with _ | ⟨c, h'⟩
    · exact absurd rfl hh
    · rw [List.cons_append,
        List.takeWhile_cons_of_pos (hha c (List.mem_cons_self c h'))]
      rfl
  unfold matchEmailAt
  rw [ht, if_neg (by simp [List.isEmpty_iff, hu]), hd]
  simp [ht2]

/-- Whatever `searchEmail` returns is an email-shaped infix of the text. -/
theorem searchEmail_sound {cs m : List Char} (hs : searchEmail cs = some m) :
    ∃ u h : List Char, u ≠ [] ∧ h ≠ [] ∧
      (∀ c ∈ u, emailChar c = true) ∧ (∀ c ∈ h, emailChar c = true) ∧
      m = u ++ '@' :: h ∧ m <:+: cs := by
  induction cs with
  | nil => cases hs
  | cons c cs' ih =>
    rw [searchEmail] at hs
    rcases hmm : matchEmailAt (c :: cs') with _ | m'
    · rw [hmm] at hs
      obtain ⟨u, h, hu, hh, hua, hha, hform, hinf⟩ := ih hs
      exact ⟨u, h, hu, hh, hua, hha, hform, List.infix_cons hinf⟩
    · rw [hmm] at hs
      obtain rfl : m' = m := Option.some.inj hs
      obtain ⟨u, h, hu, hh, hua, hha, hform, hpre⟩ := matchEmailAt_sound hmm
      exact ⟨u, h, hu, hh, hua, hha, hform, hpre.isInfix⟩

/-- If the text contains an email-shaped segment, the scan succeeds. -/
theorem searchEmail_isSome {x u h y : List Char} (hu : u ≠ []) (hh : h ≠ [])
    (hua : ∀ c ∈ u, emailChar c = true) (hha : ∀ c ∈ h, emailChar c = true) :
    (searchEmail (x ++ u ++ '@' :: (h ++ y))).isSome = true := by
  induction x with
  | nil =>
    rcases u with _ | ⟨c, u'⟩
    · exact absurd rfl hu
    · rw [List.nil_append, List.cons_append, searchEmail]
      rcases hmm : matchEmailAt (c :: (u' ++ '@' :: (h ++ y))) with _ | m'
      · have := matchEmailAt_anchor hu hh hua hha (y := y)
        rw [show (c :: u' : List Char) ++ '@' :: (h ++ y)
            = c :: (u' ++ '@' :: (h ++ y)) from rfl, hmm] at this
        cases this
      · rfl
  | cons a x' ih =>
    rw [List.cons_append, List.cons_append, searchEmail]
    rcases hmm : matchEmailAt (a :: (x' ++ u ++ '@' :: (h ++ y))) with _ | m'
    · simpa using ih
    · rfl

/-- `searchEmail` returns the match at the smallest starting position. -/
theorem searchEmail_leftmost {m : List Char} :
    ∀ (p : Nat) (cs : List Char), matchEmailAt (cs.drop p) = some m →
      (∀ q, q < p → matchEmailAt (cs.drop q) = none) → searchEmail cs = some m := by
  intro p
  induction p with
  | zero =>
    intro cs hp _
    rcases cs with _ | ⟨c, cs'⟩
    · rw [List.drop_nil] at hp
      cases hp
    · rw [List.drop_zero] at hp
      rw [searchEmail, hp]
  | succ p ih =>
    intro cs hp hq
    rcases cs with _ | ⟨c, cs'⟩
    · rw [List.drop_nil] at hp
      cases hp
    · have h0 : matchEmailAt (c :: cs') = none := by
        have := hq 0 (Nat.succ_pos p)
        rwa [List.drop_zero] at this
      rw [searchEmail, h0]
      exact ih cs' (by rwa [List.drop_succ_cons] at hp)
        (fun q hlt => by
          have := hq (q + 1) (Nat.succ_lt_succ hlt)
          rwa [List.drop_succ_cons] at this)

theorem extract_email_some_eq (t : String) :
    extract_email (some t) =
      if t = "" then ""
      else
        match searchEmail t.data with
        | some m => String.mk m
        | none => "" := rfl

theorem searchEmail_some_of_search {s : String} {m : List Char}
    (hm : searchEmail s.data = some m) : extract_email (some s) = String.mk m := by
  have hne : s ≠ "" := by
    intro h
    subst h
    cases hm
  rw [extract_email_some_eq, if_neg hne, hm]

theorem containsTLDEmail_has_dot {s : String} (h : containsTLDEmail s) :
    '.' ∈ s.data := by
  obtain ⟨u, hmid, t, -, -, -, -, -, -, x, y, hxy⟩ := h
  rw [← hxy]
  simp

theorem head?_dropWhile_neg {α : Type} {p : α → Bool} {l : List α} {c : α}
    (h : (l.dropWhile p).head? = some c) : p c = false := by
  induction l with
  | nil => cases h
  | cons a as ih =>
    rw [List.dropWhile_cons] at h
    split at h
    · exact ih h
    · rename_i hpa
      obtain rfl : a = c := by cases h; rfl
      simpa using hpa

/-- Exact structure of a successful anchored match: the match is the
maximal class run before the `@` and the maximal class run after it, the
scanned text continues with a rest whose head (if any) is not a class
character — the match cannot be extended to the right. -/
theorem matchEmailAt_structure {l m : List Char} (hm : matchEmailAt l = some m) :
    ∃ u h y : List Char, u ≠ [] ∧ h ≠ [] ∧
      (∀ c ∈ u, emailChar c = true) ∧ (∀ c ∈ h, emailChar c = true) ∧
      m = u ++ '@' :: h ∧ l = u ++ '@' :: (h ++ y) ∧
      (∀ c, y.head? = some c → emailChar c = false) := by
  unfold matchEmailAt at hm
  split at hm
  · cases hm
  · rename_i h1
    split at hm
    · rename_i rest hd
      split at hm
      · cases hm
      · rename_i h2
        obtain rfl : l.takeWhile emailChar ++ '@' :: rest.takeWhile emailChar = m :=
          Option.some.inj hm
        refine ⟨l.takeWhile emailChar, rest.takeWhile emailChar, rest.dropWhile emailChar,
          by simpa [List.isEmpty_iff] using h1,
          by simpa [List.isEmpty_iff] using h2,
          fun c hc => List.mem_takeWhile_imp hc,
          fun c hc => List.mem_takeWhile_imp hc, rfl, ?_, ?_⟩
        · conv_lhs => rw [← List.takeWhile_append_dropWhile (p := emailChar) (l := l)]
          rw [hd, List.takeWhile_append_dropWhile]
        · intro c hc
          exact head?_dropWhile_neg hc
    · cases hm

/-- `searchEmail` succeeds exactly at the first position where the
anchored match succeeds. -/
theorem searchEmail_first {cs m : List Char} (hs : searchEmail cs = some m) :
    ∃ p, matchEmailAt (cs.drop p) = some m ∧
      ∀ q, q < p → matchEmailAt (cs.drop q) = none := by
  induction cs with
  | nil => cases hs
  | cons c cs' ih =>
    rw [searchEmail] at hs
    rcases hmm : matchEmailAt (c :: cs') with _ | m'
    · rw [hmm] at hs
      obtain ⟨p, hp, hq⟩ := ih hs
      refine ⟨p + 1, by rwa [List.drop_succ_cons], ?_⟩
      intro q hq'
      cases q with
      | zero => rwa [List.drop_zero]
      | succ q' =>
        rw [List.drop_succ_cons]
        exact hq q' (Nat.lt_of_succ_lt_succ hq')
    · rw [hmm] at hs
      obtain rfl : m' = m := Option.some.inj hs
      exact ⟨0, by rwa [List.drop_zero], fun q hq => absurd hq (Nat.not_lt_zero q)⟩

/-! ## The claims -/

/-- C3: for every affiliation string containing at least one of the
sixteen keywords as a substring in any letter casing,
`is_pharma_affiliation` returns true; for every string containing none of
them case-insensitively, it returns false. -/
theorem is_pharma_affiliation_correct (s : String) :
    is_pharma_affiliation (some s) = true ↔
      ∃ kw ∈ PHARMA_KEYWORDS, ∃ t, t <:+: s.data ∧ t.map Char.toLower = kw.data := by
  unfold is_pharma_affiliation
  simp only [Option.getD_some, List.any_eq_true]
  constructor
  · rintro ⟨kw, hkw, hsub⟩
    rw [isSubListOf_eq_true_iff] at hsub
    obtain ⟨t, ht, hmap⟩ := infix_map_exists.mp hsub
    exact ⟨kw, hkw, t, ht, hmap⟩
  · rintro ⟨kw, hkw, t, ht, hmap⟩
    exact ⟨kw, hkw, (isSubListOf_eq_true_iff _ _).mpr (infix_map_exists.mpr ⟨t, ht, hmap⟩)⟩

/-- C10: `is_pharma_affiliation` and `extract_email` are total on missing
input: on `None` and on the empty string the former returns false and the
latter the empty string, and the parser's treatment of an affiliation
element with no text (`aff.text or ""`) never produces a match and leaves
the scan state unchanged. -/
theorem helpers_total_on_missing_input :
    is_pharma_affiliation none = false ∧
    extract_email none = "" ∧
    is_pharma_affiliation (some "") = false ∧
    extract_email (some "") = "" ∧
    ∀ (a : Author) (st : MatchState), processAff a st none = st := by
  refine ⟨by decide, rfl, by decide, rfl, fun a st => ?_⟩
  exact processAff_of_notPharma a st none (by decide)

/-- C9: when the text has a regex match starting at position `p` and no
match starts at any earlier position, `extract_email` returns that
leftmost match. -/
theorem extract_email_leftmost (s : String) (p : Nat) (m : List Char)
    (hp : matchEmailAt (s.data.drop p) = some m)
    (hq : ∀ q, q < p → matchEmailAt (s.data.drop q) = none) :
    extract_email (some s) = String.mk m := by
  have hne : s ≠ "" := by
    intro h
    subst h
    rw [show ("" : String).data = [] from rfl, List.drop_nil] at hp
    cases hp
  rw [extract_email_some_eq, if_neg hne, searchEmail_leftmost p s.data hp hq]

/-- Witness for C9: on `"x a@b c@d"` the match at position 2 is leftmost
and `extract_email` returns it, not the later `c@d`. -/
theorem extract_email_leftmost_witness :
    matchEmailAt (("x a@b c@d" : String).data.drop 2) = some ['a', '@', 'b'] ∧
    (∀ q, q < 2 → matchEmailAt (("x a@b c@d" : String).data.drop q) = none) ∧
    extract_email (some "x a@b c@d") = String.mk ['a', '@', 'b'] :=
  ⟨by decide, by decide,
    extract_email_leftmost "x a@b c@d" 2 ['a', '@', 'b'] (by decide) (by decide)⟩

/-- C7: when the search step returns an empty identifier list, `main`
prints "No articles found for the given query.", exits with status 0, and
never calls the fetch endpoint. -/
theorem empty_idlist_short_circuits (fetchRes : Except Unit (List RawBatch)) :
    mainRun (SearchOutcome.ids []) fetchRes =
      ⟨0, "No articles found for the given query.", false, false⟩ := rfl

/-- C8: a malformed batch anywhere in the fetched sequence makes the whole
run fail: exit status 1, an error message, and no report of any kind, not
even from earlier well-formed batches. -/
theorem malformed_batch_aborts (pmids : List String) (batches : List RawBatch)
    (h1 : pmids ≠ []) (h2 : RawBatch.malformed ∈ batches) :
    mainRun (SearchOutcome.ids pmids) (Except.ok batches) =
      ⟨1, "Error fetching or parsing articles: ...", true, false⟩ := by
  rcases pmids with _ | ⟨p, ps⟩
  · exact absurd rfl h1
  · simp [mainRun, parse_articles_error_of_malformed h2]

/-- Witness for C8 at a concrete run with one identifier and one
malformed batch. -/
theorem malformed_batch_aborts_witness :
    mainRun (SearchOutcome.ids ["1"]) (Except.ok [RawBatch.malformed]) =
      ⟨1, "Error fetching or parsing articles: ...", true, false⟩ :=
  malformed_batch_aborts ["1"] [RawBatch.malformed] (by decide)
    (List.mem_cons_self _ _)

/-- C5: with all batches well-formed, the parser emits, in encounter
order, exactly the records accepted by `parseArticle`; and `parseArticle`
accepts a record iff some author has some qualifying affiliation. -/
theorem parse_articles_emission :
    (∀ artss : List (List PubmedArticle),
      parse_articles (artss.map RawBatch.wellFormed) =
        Except.ok (artss.flatten.filterMap parseArticle)) ∧
    (∀ art : PubmedArticle,
      (parseArticle art).isSome = true ↔
        ∃ a ∈ art.authors, ∃ x ∈ a.affiliations, is_pharma_affiliation x = true) :=
  ⟨parse_articles_wellFormed, parseArticle_isSome_iff⟩

/-- C1: if no author before `a` has a qualifying affiliation and `t` is the
first qualifying affiliation of `a`, the emitted row carries `a`'s name and
`t` — whatever later authors (`post`) or later affiliations (`ar`) hold:
the first match is never overwritten. -/
theorem parse_first_match_wins
    (art : PubmedArticle) (pre post : List Author) (a : Author)
    (ap ar : List (Option String)) (t : Option String)
    (hAuthors : art.authors = pre ++ a :: post)
    (hPre : ∀ b ∈ pre, ∀ x ∈ b.affiliations, is_pharma_affiliation x = false)
    (hAffs : a.affiliations = ap ++ t :: ar)
    (hAp : ∀ x ∈ ap, is_pharma_affiliation x = false)
    (hT : is_pharma_affiliation t = true) :
    ∃ r, parseArticle art = some r ∧
      r.companyAffiliation = t.getD "" ∧ r.nonAcadAuthor = authorName a := by
  have hM : art.authors.foldl processAuthor ⟨"", "", ""⟩ =
      { nonAcadAuthor := authorName a
        companyAff := t.getD ""
        corrEmail :=
          if extract_email (some (t.getD "")) = "" then ""
          else extract_email (some (t.getD "")) } := by
    rw [hAuthors, List.foldl_append, foldAuthors_of_none pre ⟨"", "", ""⟩ hPre,
      List.foldl_cons,
      show processAuthor ⟨"", "", ""⟩ a
        = a.affiliations.foldl (processAff a) ⟨"", "", ""⟩ from rfl,
      hAffs, foldAffs_first_match a ap ar t ⟨"", "", ""⟩ rfl hAp hT]
    exact foldAuthors_of_found post _ (qualifying_getD_ne_empty hT)
  refine ⟨{ pubmedID := art.pmid.getD ""
            title := art.title.getD ""
            publicationDate := pyOr art.pubDateYear (pyOr art.articleDateYear "")
            companyAffiliation := t.getD ""
            nonAcadAuthor := authorName a
            corrEmail :=
              if extract_email (some (t.getD "")) = "" then ""
              else extract_email (some (t.getD "")) }, ?_, rfl, rfl⟩
  unfold parseArticle
  rw [hM, if_neg (qualifying_getD_ne_empty hT)]

/-- Witness for C1: in `wArticle` the second author holds the first
qualifying affiliation; the third author's qualifying affiliation does not
overwrite it. -/
theorem parse_first_match_wins_witness :
    ∃ r, parseArticle wArticle = some r ∧
      r.companyAffiliation = "Acme Pharma, j@a.io" ∧
      r.nonAcadAuthor = "Bob Jones" := by
  obtain ⟨r, h1, h2, h3⟩ := parse_first_match_wins wArticle
    [⟨some "Alice", some "Smith", [some "Harvard Medical School"]⟩]
    [⟨some "Carol", some "King", [some "Beta biotech"]⟩]
    ⟨some "Bob", some "Jones", [some "MIT", some "Acme Pharma, j@a.io"]⟩
    [some "MIT"] [] (some "Acme Pharma, j@a.io")
    rfl (by decide) rfl (by decide) (by decide)
  exact ⟨r, h1, by rw [h2]; rfl, by rw [h3]; decide⟩

theorem fetch_article_xml_spec (n : Nat) :
    ∀ l : List String, l.length ≤ n →
      (fetch_article_xml l).requests.length = (l.length + 49) / 50 ∧
      (∀ r ∈ (fetch_article_xml l).requests, r.length ≤ 50) ∧
      (fetch_article_xml l).requests.flatten = l ∧
      (fetch_article_xml l).sleeps = (fetch_article_xml l).requests.length := by
  induction n with
  | zero =>
    intro l hl
    obtain rfl : l = [] := List.eq_nil_of_length_eq_zero (Nat.le_zero.mp hl)
    rw [fetch_article_xml_nil]
    exact ⟨by simp, by simp, rfl, rfl⟩
  | succ n ih =>
    intro l hl
    by_cases h : l = []
    · subst h
      rw [fetch_article_xml_nil]
      exact ⟨by simp, by simp, rfl, rfl⟩
    · obtain ⟨ih1, ih2, ih3, ih4⟩ := ih (l.drop 50) (by rw [List.length_drop]; omega)
      have hlen : 1 ≤ l.length := by
        rcases l with _ | ⟨a, as⟩
        · exact absurd rfl h
        · simp
      rw [fetch_article_xml_cons l h]
      refine ⟨?_, ?_, ?_, ?_⟩
      · simp only [List.length_cons, ih1, List.length_drop]
        omega
      · intro r hr
        rcases List.mem_cons.mp hr with rfl | hr'
        · simp [List.length_take]
        · exact ih2 r hr'
      · simp only [List.flatten_cons, ih3]
        exact List.take_append_drop 50 l
      · simp only [List.length_cons, ih4]

/-- C2 counterexample: for one identifier the code issues one request but
performs one delay, not `ceil(1/50) - 1 = 0`: the delay is executed after
every request, the last included, not only between requests. -/
theorem fetch_delay_count_cex :
    (fetch_article_xml ["1"]).requests = [["1"]] ∧
    (fetch_article_xml ["1"]).sleeps = 1 ∧
    (fetch_article_xml ["1"]).sleeps ≠ (fetch_article_xml ["1"]).requests.length - 1 := by
  have h1 : fetch_article_xml ["1"] = ⟨[["1"]], 1⟩ := by
    rw [fetch_article_xml_cons ["1"] (by decide),
      show List.drop 50 ["1"] = [] from rfl, fetch_article_xml_nil]
    rfl
  rw [h1]
  exact ⟨rfl, rfl, by decide⟩

/-- C2 amended: for every identifier list of length `L` the fetcher issues
exactly `ceil(L/50)` requests of at most 50 identifiers each, partitioned
consecutively in order, and performs exactly `ceil(L/50)` fixed delays —
one after every request, including the last. -/
theorem fetch_chunking_amended (pmids : List String) :
    (fetch_article_xml pmids).requests.length = (pmids.length + 49) / 50 ∧
    (∀ r ∈ (fetch_article_xml pmids).requests, r.length ≤ 50) ∧
    (fetch_article_xml pmids).requests.flatten = pmids ∧
    (fetch_article_xml pmids).sleeps = (fetch_article_xml pmids).requests.length :=
  fetch_article_xml_spec pmids.length pmids le_rfl

/-- C4 counterexample: `"a@b"` contains no substring of the claimed
`user@host.tld` form (it has no dot at all), yet `extract_email` returns
`"a@b"`, not the empty string. -/
theorem extract_email_tld_cex :
    extract_email (some "a@b") = "a@b" ∧
    ¬ containsTLDEmail "a@b" ∧ ("a@b" : String) ≠ "" := by
  refine ⟨by decide, fun hc => ?_, by decide⟩
  have hd := containsTLDEmail_has_dot hc
  revert hd
  decide

/-- C4 amended: `extract_email` returns the empty string iff the text
contains no substring of the form `local@domain` with nonempty runs of
word characters, dots and hyphens on both sides (no dot required in the
domain); when such a substring exists, the returned value is the leftmost
maximal one: it occurs in the text, no such substring starts earlier, and
the characters adjacent to the occurrence (if any) are outside the class,
so it can be extended on neither side. -/
theorem extract_email_amended (s : String) :
    (extract_email (some s) = "" ↔ ¬ containsEmailLike s) ∧
    (containsEmailLike s →
      ∃ x u h y : List Char, u ≠ [] ∧ h ≠ [] ∧
        (∀ c ∈ u, emailChar c = true) ∧ (∀ c ∈ h, emailChar c = true) ∧
        s.data = x ++ (u ++ '@' :: h) ++ y ∧
        (extract_email (some s)).data = u ++ '@' :: h ∧
        (∀ c, x.getLast? = some c → emailChar c = false) ∧
        (∀ c, y.head? = some c → emailChar c = false) ∧
        (∀ x' u' h' y' : List Char, u' ≠ [] → h' ≠ [] →
          (∀ c ∈ u', emailChar c = true) → (∀ c ∈ h', emailChar c = true) →
          s.data = x' ++ (u' ++ '@' :: h') ++ y' → x.length ≤ x'.length)) := by
  have main : containsEmailLike s →
      ∃ x u h y : List Char, u ≠ [] ∧ h ≠ [] ∧
        (∀ c ∈ u, emailChar c = true) ∧ (∀ c ∈ h, emailChar c = true) ∧
        s.data = x ++ (u ++ '@' :: h) ++ y ∧
        (extract_email (some s)).data = u ++ '@' :: h ∧
        (∀ c, x.getLast? = some c → emailChar c = false) ∧
        (∀ c, y.head? = some c → emailChar c = false) ∧
        (∀ x' u' h' y' : List Char, u' ≠ [] → h' ≠ [] →
          (∀ c ∈ u', emailChar c = true) → (∀ c ∈ h', emailChar c = true) →
          s.data = x' ++ (u' ++ '@' :: h') ++ y' → x.length ≤ x'.length) := by
    rintro ⟨u0, h0, hu0, hh0, hua0, hha0, x0, y0, hxy0⟩
    have hsd : s.data = x0 ++ u0 ++ '@' :: (h0 ++ y0) := by
      rw [← hxy0]
      simp [List.append_assoc]
    have hsome := searchEmail_isSome (x := x0) (y := y0) hu0 hh0 hua0 hha0
    rw [← hsd] at hsome
    obtain ⟨m, hm⟩ := Option.isSome_iff_exists.mp hsome
    obtain ⟨p, hp, hfirst⟩ := searchEmail_first hm
    obtain ⟨u, h, y, hu, hh, hua, hha, hmform, hsuffix, hyhead⟩ :=
      matchEmailAt_structure hp
    have hplt : p < s.data.length := by
      by_contra hge
      push_neg at hge
      have heq := List.drop_eq_nil_of_le hge
      rw [hsuffix] at heq
      rcases u with _ | ⟨a, as⟩
      · exact hu rfl
      · cases heq
    have hxlen : (s.data.take p).length = p := by
      rw [List.length_take]
      omega
    have hsplit : s.data = s.data.take p ++ (u ++ '@' :: h) ++ y := by
      conv_lhs => rw [← List.take_append_drop p s.data]
      rw [hsuffix]
      simp [List.append_assoc]
    refine ⟨s.data.take p, u, h, y, hu, hh, hua, hha, hsplit, ?_, ?_, hyhead, ?_⟩
    · rw [searchEmail_some_of_search hm, show (String.mk m).data = m from rfl, hmform]
    · intro c hcl
      obtain ⟨x1, hx1⟩ := List.getLast?_eq_some_iff.mp hcl
      by_contra hcc
      have hctrue : emailChar c = true := by
        revert hcc
        cases emailChar c <;> simp
      have hx1len : x1.length + 1 = p := by
        rw [← hxlen, hx1]
        simp
      have hflat : s.data = x1 ++ (c :: (u ++ '@' :: (h ++ y))) := by
        rw [hsplit, hx1]
        simp [List.append_assoc]
      have hdrop1 : s.data.drop x1.length = c :: (u ++ '@' :: (h ++ y)) := by
        rw [hflat]
        exact List.drop_left x1 _
      have hnone := hfirst x1.length (by omega)
      rw [hdrop1] at hnone
      have hsome2 := matchEmailAt_anchor (u := c :: u) (y := y) (by simp) hh
        (fun d hd => by
          rcases List.mem_cons.mp hd with rfl | hd'
          · exact hctrue
          · exact hua d hd') hha
      rw [show ((c :: u : List Char) ++ '@' :: (h ++ y))
          = c :: (u ++ '@' :: (h ++ y)) from rfl, hnone] at hsome2
      cases hsome2
    · intro x' u' h' y' hu' hh' hua' hha' hdec
      by_contra hlt
      push_neg at hlt
      rw [hxlen] at hlt
      have hdec' : s.data = x' ++ (u' ++ '@' :: (h' ++ y')) := by
        rw [hdec]
        simp [List.append_assoc]
      have hdrop' : s.data.drop x'.length = u' ++ '@' :: (h' ++ y') := by
        rw [hdec']
        exact List.drop_left x' _
      have hnone := hfirst x'.length hlt
      rw [hdrop'] at hnone
      have hsome3 := matchEmailAt_anchor (y := y') hu' hh' hua' hha'
      rw [hnone] at hsome3
      cases hsome3
  constructor
  · constructor
    · intro he hc
      obtain ⟨x, u, h, y, hu, hh, hua, hha, hsplit, hdata, hleft, hright, hleast⟩ :=
        main hc
      rw [he] at hdata
      cases u with
      | nil => exact hu rfl
      | cons c cs => cases hdata
    · intro hnc
      by_cases hse : s = ""
      · subst hse
        rfl
      · rcases hm : searchEmail s.data with _ | m
        · rw [extract_email_some_eq, if_neg hse, hm]
        · exfalso
          apply hnc
          obtain ⟨u, h, hu, hh, hua, hha, hform', hinf⟩ := searchEmail_sound hm
          exact ⟨u, h, hu, hh, hua, hha, hform' ▸ hinf⟩
  · exact main

/-- Witness for C4's amended claim at the concrete text `"u@h"`. -/
theorem extract_email_amended_witness :
    containsEmailLike "u@h" ∧ extract_email (some "u@h") ≠ "" := by
  have hc : containsEmailLike "u@h" :=
    ⟨['u'], ['h'], by decide, by decide, by decide, by decide, [], [], by decide⟩
  exact ⟨hc, fun he => ((extract_email_amended "u@h").1.mp he) hc⟩

/-- C6 counterexample: in `yearArticle` the article-level year field is
present (the element exists, with empty text) and the secondary field
holds `"2020"`; the claim requires the empty present value, but the code's
`or`-chain falls through and emits `"2020"`. -/
theorem pubdate_present_empty_cex :
    yearArticle.pubDateYear = some "" ∧
    (parseArticle yearArticle).map ArticleResult.publicationDate = some "2020" ∧
    specPublicationDate yearArticle = "" ∧ ("2020" : String) ≠ "" := by
  exact ⟨rfl, by decide, rfl, by decide⟩

/-- C6 amended: the Publication Date equals the article-level year field's
value when that field is present with nonempty text; otherwise the
secondary field's value when present with nonempty text; otherwise the
empty string. -/
theorem pubdate_fallback_amended (art : PubmedArticle) (r : ArticleResult)
    (h : parseArticle art = some r) :
    (∀ y, art.pubDateYear = some y → y ≠ "" → r.publicationDate = y) ∧
    ((art.pubDateYear = none ∨ art.pubDateYear = some "") →
      (∀ y, art.articleDateYear = some y → y ≠ "" → r.publicationDate = y) ∧
      ((art.articleDateYear = none ∨ art.articleDateYear = some "") →
        r.publicationDate = "")) := by
  have hr : r.publicationDate = pyOr art.pubDateYear (pyOr art.articleDateYear "") := by
    unfold parseArticle at h
    by_cases hc : (art.authors.foldl processAuthor ⟨"", "", ""⟩).companyAff = ""
    · rw [if_pos hc] at h
      cases h
    · rw [if_neg hc] at h
      have := Option.some.inj h
      rw [← this]
  refine ⟨?_, ?_⟩
  · intro y hy hne
    rw [hr, hy]
    simp [pyOr, hne]
  · intro h0
    refine ⟨?_, ?_⟩
    · intro y hy hne
      rcases h0 with h0 | h0 <;>
        rw [hr, h0, hy] <;> simp [pyOr, hne]
    · intro h1
      rcases h0 with h0 | h0 <;> rcases h1 with h1 | h1 <;>
        rw [hr, h0, h1] <;> simp [pyOr]

/-- Witness for C6's amended claim on `yearArticle2`, whose article-level
year is the nonempty `"2001"`. -/
theorem pubdate_fallback_amended_witness :
    parseArticle yearArticle2 =
      some ⟨"8", "C Title", "2001", "Acme inc", "Jan Doe", ""⟩ ∧
    (⟨"8", "C Title", "2001", "Acme inc", "Jan Doe", ""⟩ : ArticleResult).publicationDate
      = "2001" := by
  have h : parseArticle yearArticle2 =
      some ⟨"8", "C Title", "2001", "Acme inc", "Jan Doe", ""⟩ := by decide
  exact ⟨h, (pubdate_fallback_amended yearArticle2 _ h).1 "2001" rfl (by decide)⟩
